import Mathlib

/-!
Verification of the terminology-consistency checker
(`skill-builder/scripts/check_terminology.py`).

Python strings are modelled as lists of characters (`Str`), Python dicts as
insertion-ordered association lists, and Python sets as lists used only
through membership tests.  Every confidence value of the source is an exact
multiple of 0.01 and the scorer only adds, compares and clamps them, so they
are modelled exactly as integers in hundredths (`Conf`, 1.0 ≡ 100); the
frequency-ratio comparisons `max/min > 10` and `> 5` are modelled by the
equivalent integer comparisons `10*min < max` and `5*min < max`.  `str.lower()` is modelled on ASCII letters,
which covers every string the checker manipulates.
-/

set_option maxRecDepth 10000
set_option maxHeartbeats 1600000

/-- Python strings, modelled as lists of characters. -/
abbrev Str := List Char

/-- Helper turning a Lean string literal into the model type. -/
def str (s : String) : Str := s.data

/-- Confidence values in exact hundredths (1.0 ≡ 100). -/
abbrev Conf := Int

/-- Model of `str.lower()` (ASCII). -/
def lowerStr (s : Str) : Str := s.map Char.toLower

/-- The backtick character (written via its code point to keep it out of
source text). -/
def backtick : Char := Char.ofNat 96

/-- Substitution cost used by the Levenshtein recurrence:
`(c1 != c2)` in the Python source. -/
def costCh (a b : Char) : Nat := if a = b then 0 else 1

/-! ### Reference specification: textbook Levenshtein distance

`levSpec` is the classic dynamic-programming recurrence for edit distance:
the distance between two strings is the length of the other string when one
is empty, and otherwise the minimum of a deletion, an insertion, and a
(possibly free) substitution. -/

/-- Textbook Levenshtein edit distance, by the standard recurrence. -/
def levSpec : Str → Str → Nat
  | [], t => t.length
  | _ :: s, [] => s.length + 1
  | a :: s, b :: t =>
      min (levSpec s (b :: t) + 1) (min (levSpec (a :: s) t + 1) (levSpec s t + costCh a b))
termination_by s t => s.length + t.length
decreasing_by all_goals (simp [List.length_cons]; try omega)

theorem levSpec_nil_left (t : Str) : levSpec [] t = t.length := by
  rw [levSpec]

theorem levSpec_cons_nil (a : Char) (s : Str) : levSpec (a :: s) [] = s.length + 1 := by
  rw [levSpec]

theorem levSpec_nil_right (s : Str) : levSpec s [] = s.length := by
  cases s with
  | nil => rw [levSpec]
  | cons a s => rw [levSpec]; rfl

theorem levSpec_cons_cons (a b : Char) (s t : Str) :
    levSpec (a :: s) (b :: t) =
      min (levSpec s (b :: t) + 1) (min (levSpec (a :: s) t + 1) (levSpec s t + costCh a b)) := by
  rw [levSpec]

theorem costCh_comm (a b : Char) : costCh a b = costCh b a := by
  simp only [costCh, eq_comm]

/-- Symmetry of the textbook edit distance. -/
theorem levSpec_comm (s t : Str) : levSpec s t = levSpec t s := by
  induction s generalizing t with
  | nil => rw [levSpec_nil_left, levSpec_nil_right]
  | cons a s ihs =>
    induction t with
    | nil => rw [levSpec_nil_left, levSpec_nil_right]
    | cons b t iht =>
      rw [levSpec_cons_cons, levSpec_cons_cons, ihs (b :: t), iht, ihs t, costCh_comm]
      omega

/-- Min-multiset identity underlying the two-dimensional step of the append
recurrence: both sides are the minimum of the same nine summands. -/
theorem min_shuffle (P1 P2 P3 Q1 Q2 Q3 S1 S2 S3 u e : Nat) :
    min (min (P1+1) (min (P2+1) (P3+u)) + 1)
        (min (min (Q1+1) (min (Q2+1) (Q3+u)) + 1)
             (min (S1+1) (min (S2+1) (S3+u)) + e))
    =
    min (min (P1+1) (min (Q1+1) (S1+e)) + 1)
        (min (min (P2+1) (min (Q2+1) (S2+e)) + 1)
             (min (P3+1) (min (Q3+1) (S3+e)) + u)) := by
  simp only [← Nat.add_min_add_right]
  simp only [Nat.add_comm, Nat.add_left_comm, Nat.add_assoc]
  simp only [Nat.min_comm, Nat.min_left_comm, Nat.min_assoc]

/-- The append recurrence: peeling the *last* character of each string obeys
the same three-way minimum as the front recurrence.  Purely a consequence of
min-algebra over the front recurrence. -/
theorem levSpec_append_append (a b : Char) (s t : Str) :
    levSpec (s ++ [a]) (t ++ [b]) =
      min (levSpec s (t ++ [b]) + 1)
        (min (levSpec (s ++ [a]) t + 1) (levSpec s t + costCh a b)) := by
  induction s generalizing t with
  | nil =>
    induction t with
    | nil =>
      simp only [List.nil_append]
      exact levSpec_cons_cons a b [] []
    | cons y t iht =>
      simp only [List.nil_append, List.cons_append] at iht ⊢
      rw [levSpec_cons_cons a y [] (t ++ [b]), levSpec_cons_cons a y [] t, iht]
      simp only [levSpec_nil_left, List.length_cons, List.length_append, List.length_nil]
      omega
  | cons x s ihs =>
    induction t with
    | nil =>
      have h := ihs []
      simp only [List.nil_append, List.cons_append] at h ⊢
      rw [levSpec_cons_cons x b (s ++ [a]) [], levSpec_cons_cons x b s [], h]
      simp only [levSpec_nil_left, levSpec_nil_right, List.length_append,
        List.length_cons, List.length_nil]
      omega
    | cons y t iht =>
      have h1 := ihs (y :: t)
      have h3 := ihs t
      simp only [List.cons_append] at h1 iht ⊢
      have e1 := levSpec_cons_cons x y (s ++ [a]) (t ++ [b])
      have e2 := levSpec_cons_cons x y s (t ++ [b])
      have e3 := levSpec_cons_cons x y (s ++ [a]) t
      have e4 := levSpec_cons_cons x y s t
      rw [e1, h1, iht, h3, e2, e3, e4]
      exact min_shuffle _ _ _ _ _ _ _ _ _ _ _

/-- Edit distance is invariant under reversing both strings. -/
theorem levSpec_reverse (s t : Str) :
    levSpec s.reverse t.reverse = levSpec s t := by
  induction s generalizing t with
  | nil => simp [levSpec_nil_left]
  | cons a s ihs =>
    induction t with
    | nil => simp [levSpec_nil_right]
    | cons b t iht =>
      rw [List.reverse_cons, List.reverse_cons, levSpec_append_append,
        ← List.reverse_cons b, ihs (b :: t), ← List.reverse_cons a, iht, ihs t,
        levSpec_cons_cons]

/-! ### The implementation: `levenshtein_distance`

A faithful embedding of the Python single-rolling-row computation.  The
inner loop walks `s2` together with the previous row (`p0 :: p1 :: _`
exposing `previous_row[j]` and `previous_row[j+1]`) carrying in `last` the
most recently appended cell of the current row. -/

/-- Inner loop of the Python implementation: builds the tail of
`current_row` for character `c1`.  `prev` is the suffix of the previous row
aligned with the suffix `s2`; `last` is the cell appended most recently. -/
def levRow (c1 : Char) : Str → List Nat → Nat → List Nat
  | [], _, _ => []
  | _ :: _, [], _ => []
  | _ :: _, [_], _ => []
  | c2 :: s2, p0 :: p1 :: ps, last =>
      let cell := min (p1 + 1) (min (last + 1) (p0 + costCh c1 c2))
      cell :: levRow c1 s2 (p1 :: ps) cell

/-- Outer loop of the Python implementation: folds each character of `s1`
into a fresh row, starting each row with `i + 1`. -/
def levRows (s2 : Str) : Str → Nat → List Nat → List Nat
  | [], _, prev => prev
  | c1 :: s1, i, prev => levRows s2 s1 (i + 1) ((i + 1) :: levRow c1 s2 prev (i + 1))

/-- The body of `levenshtein_distance` after the argument swap:
early-return for an empty `s2`, otherwise run the rolling rows and take the
final `previous_row[-1]`. -/
def levCore (s1 s2 : Str) : Nat :=
  if s2.length = 0 then s1.length
  else (levRows s2 s1 0 (List.range (s2.length + 1))).getLastD 0

/-- Model of `levenshtein_distance` from `check_terminology.py`: swap the
arguments so the second is the shorter, then run the rolling-row loop. -/
def levenshtein_distance (s1 s2 : Str) : Nat :=
  if s1.length < s2.length then levCore s2 s1 else levCore s1 s2

/-! #### Correctness of the rolling-row loop

The row kept by the loop after consuming a prefix `P` of `s1` (stored in
reverse) holds, for every split of `s2`, the spec distance between `P` and
the reversed consumed part of `s2`.  `specCells` writes that row down. -/

/-- The tail of the DP row for reversed consumed prefix `P`: one cell per
character of the remaining `t`, where `acc` is the reversed consumed part
of `s2`. -/
def specCells (P : Str) : Str → Str → List Nat
  | [], _ => []
  | c :: t, acc => levSpec P (c :: acc) :: specCells P t (c :: acc)

theorem levRow_spec (c1 : Char) (P : Str) :
    ∀ (t acc : Str),
      levRow c1 t (levSpec P acc :: specCells P t acc) (levSpec (c1 :: P) acc) =
        specCells (c1 :: P) t acc := by
  intro t
  induction t with
  | nil => intro acc; rfl
  | cons c t ih =>
    intro acc
    cases t with
    | nil =>
      simp only [specCells, levRow, levSpec_cons_cons]
    | cons c' t' =>
      simp only [specCells] at *
      rw [levRow]
      simp only [← levSpec_cons_cons c1 c P acc]
      rw [ih (c :: acc)]

/-- One full row (head cell plus tail) for reversed consumed prefix `P`. -/
def fullRow (P s2 : Str) : List Nat := levSpec P [] :: specCells P s2 []

theorem levRows_spec (s2 : Str) :
    ∀ (rest P : Str),
      levRows s2 rest P.length (fullRow P s2) = fullRow (rest.reverse ++ P) s2 := by
  intro rest
  induction rest with
  | nil => intro P; simp [levRows]
  | cons c1 rest ih =>
    intro P
    rw [levRows]
    have hlen : P.length + 1 = (c1 :: P).length := rfl
    have hhead : (P.length + 1 : Nat) = levSpec (c1 :: P) [] := by
      rw [levSpec_cons_nil]
    have hrow : levRow c1 s2 (fullRow P s2) (P.length + 1) = specCells (c1 :: P) s2 [] := by
      have := levRow_spec c1 P s2 []
      rw [levSpec_nil_right] at this
      simpa [fullRow, levSpec_nil_right] using this
    rw [hrow]
    have : ((P.length + 1 : Nat) :: specCells (c1 :: P) s2 []) = fullRow (c1 :: P) s2 := by
      simp [fullRow, levSpec_cons_nil]
    rw [this, hlen, ih (c1 :: P)]
    simp

theorem specCells_nil_spec :
    ∀ (t acc : Str), specCells [] t acc = (List.range t.length).map (fun k => acc.length + k + 1) := by
  intro t
  induction t with
  | nil => intro acc; rfl
  | cons c t ih =>
    intro acc
    rw [specCells, ih (c :: acc)]
    simp only [levSpec_nil_left, List.length_cons, List.range_succ_eq_map,
      List.map_cons, List.map_map, List.cons.injEq, true_and]
    apply List.map_congr_left
    intro k _
    simp only [Function.comp_apply]
    omega

theorem range_eq_fullRow_nil (s2 : Str) :
    List.range (s2.length + 1) = fullRow [] s2 := by
  rw [fullRow, specCells_nil_spec s2 [], levSpec_nil_right, List.range_succ_eq_map]
  simp only [List.length_nil, List.cons.injEq, true_and]
  refine ?_
  apply List.map_congr_left
  intro k _
  omega

theorem getLastD_specCells (P : Str) :
    ∀ (t acc : Str) (x : Nat),
      (specCells P t acc).getLastD x =
        (match t with | [] => x | _ :: _ => levSpec P (t.reverse ++ acc)) := by
  intro t
  induction t with
  | nil => intro acc x; rfl
  | cons c t ih =>
    intro acc x
    simp only [specCells, List.getLastD_cons]
    rw [ih (c :: acc) (levSpec P (c :: acc))]
    cases t with
    | nil => simp
    | cons c' t' => simp [List.reverse_cons, List.append_assoc]

/-- The rolling-row core computes the spec distance of the reversed inputs. -/
theorem levCore_spec (s1 s2 : Str) : levCore s1 s2 = levSpec s1.reverse s2.reverse := by
  unfold levCore
  by_cases h : s2.length = 0
  · have h2 : s2 = [] := List.length_eq_zero.mp h
    subst h2
    simp [levSpec_nil_right]
  · rw [if_neg h, range_eq_fullRow_nil]
    have hrows := levRows_spec s2 s1 []
    simp only [List.length_nil, List.append_nil] at hrows
    rw [hrows, fullRow, List.getLastD_cons, getLastD_specCells]
    cases s2 with
    | nil => exact absurd rfl h
    | cons c s2' => simp

/-- C9 core equality: the Python rolling-row implementation computes the
textbook Levenshtein distance. -/
theorem levenshtein_distance_eq_levSpec (s1 s2 : Str) :
    levenshtein_distance s1 s2 = levSpec s1 s2 := by
  unfold levenshtein_distance
  by_cases h : s1.length < s2.length
  · rw [if_pos h, levCore_spec, levSpec_reverse, levSpec_comm]
  · rw [if_neg h, levCore_spec, levSpec_reverse]

/-- C9: the single-rolling-row `levenshtein_distance` of the source equals
the textbook dynamic-programming Levenshtein edit distance; in particular it
is symmetric and returns the other string's length when one string is
empty. -/
theorem levenshtein_distance_textbook (s1 s2 : Str) :
    levenshtein_distance s1 s2 = levSpec s1 s2 ∧
    levenshtein_distance s1 s2 = levenshtein_distance s2 s1 ∧
    levenshtein_distance [] s2 = s2.length ∧
    levenshtein_distance s1 [] = s1.length := by
  refine ⟨levenshtein_distance_eq_levSpec s1 s2, ?_, ?_, ?_⟩
  · rw [levenshtein_distance_eq_levSpec s1 s2, levenshtein_distance_eq_levSpec s2 s1,
      levSpec_comm]
  · rw [levenshtein_distance_eq_levSpec, levSpec_nil_left]
  · rw [levenshtein_distance_eq_levSpec, levSpec_nil_right]

/-! ### `simple_stem` and `normalize_compound` -/

/-- Model of Python `word.endswith(suf)`: the last `suf.length` characters
equal `suf` (and the word is at least that long). -/
def endsWith (suf w : Str) : Prop :=
  suf.length ≤ w.length ∧ w.drop (w.length - suf.length) = suf

instance (suf w : Str) : Decidable (endsWith suf w) := by
  unfold endsWith; infer_instance

/-- The doubled-final-consonant test of `simple_stem`:
`len(base) >= 2 and base[-1] == base[-2] and base[-1] not in 'aeiou'`. -/
def doubled_consonant (base : Str) : Bool :=
  match base.reverse with
  | c1 :: c2 :: _ =>
      c1 == c2 && !(c1 == 'a' || c1 == 'e' || c1 == 'i' || c1 == 'o' || c1 == 'u')
  | _ => false

/-- Model of `simple_stem` from `check_terminology.py`: lowercase, then apply
at most one ordered suffix rule. -/
def simple_stem (w : Str) : Str :=
  let word := lowerStr w
  if endsWith (str "ing") word ∧ 5 < word.length then
    let base := word.take (word.length - 3)
    if doubled_consonant base then base.take (base.length - 1) else base
  else if endsWith (str "ied") word ∧ 4 < word.length then
    word.take (word.length - 3) ++ str "y"
  else if endsWith (str "ies") word ∧ 4 < word.length then
    word.take (word.length - 3) ++ str "y"
  else if endsWith (str "ed") word ∧ 4 < word.length then
    word.take (word.length - 2)
  else if endsWith (str "s") word ∧ 3 < word.length ∧ ¬ endsWith (str "ss") word then
    word.take (word.length - 1)
  else
    word

/-- Model of `normalize_compound`: lowercase and strip hyphens and spaces. -/
def normalize_compound (term : Str) : Str :=
  (lowerStr term).filter (fun c => !(c == '-') && !(c == ' '))

/-! ### Data model and global tables -/

/-- A single occurrence of a term with context (`TermOccurrence` in the
source; the Python field `section` is a Lean keyword, modelled as `sect`). -/
structure TermOccurrence where
  line_number : Nat
  sentence : Str
  sect : Str
deriving DecidableEq, Repr

/-- A pair of terms that might be inconsistent (`CandidatePair`). -/
structure CandidatePair where
  term1 : Str
  term1_count : Nat
  term2 : Str
  term2_count : Nat
  reason : Str
  term1_occurrences : List TermOccurrence := []
  term2_occurrences : List TermOccurrence := []
  suggestion : Option Str := none
  base_confidence : Conf := 0
  adjusted_confidence : Conf := 0
  modifiers_applied : List Str := []
deriving DecidableEq, Repr

/-- Configuration (`TerminologyConfig`); the collaborator layer loads it and
this core only reads it, so file handling is out of scope. -/
structure TerminologyConfig where
  version : Str := str "1.0"
  domain_abbreviations : List (Str × Str) := []
  compound_equivalents : List (List Str) := []
  ignore_terms : List Str := []
  severity_overrides : List (Str × Str) := []
deriving Repr

/-- The default configuration (all-empty, as `TerminologyConfig()`). -/
def defaultConfig : TerminologyConfig := {}

/-- Splits a space-separated literal into model strings. -/
def wordsOf (s : String) : List Str := (s.splitOn (" ")).map String.data

/-- Builds one abbreviation/expansion entry. -/
def ab (a b : String) : Str × Str := (a.data, b.data)

/-- Builds one named confidence table entry. -/
def qv (k : String) (v : Conf) : Str × Conf := (k.data, v)

/-- The STOPWORDS set of the source, in source order (a Python set used
only through membership, so duplicates in the literal are harmless). -/
def STOPWORDS : List Str := wordsOf (
  ("a an the and or but nor yet so in on at to for of with by from as into onto") ++
  (" upon out up down about over after before between under above below against") ++
  (" through during within without along across behind beyond toward towards") ++
  (" among around beside besides is was are were been be being am have has had") ++
  (" having do does did doing done will would could should may might must shall") ++
  (" can need get got getting make made making let keep put set take took give") ++
  (" gave it its they them their theirs themselves we our ours ourselves you") ++
  (" your yours yourself he she him her his hers himself herself i me my mine") ++
  (" myself this that these those all any each every both few more most other") ++
  (" some such many much several enough either neither another only own same") ++
  (" so than too very just also now here there again further once always never") ++
  (" often still already ever even quite rather almost perhaps maybe really actually") ++
  (" simply not no yes if then else when where how what which who whom whose") ++
  (" why whether see use using used uses like want wanted work works working") ++
  (" run runs running call called true false null none return def class import") ++
  (" elif try except finally raise pass break continue lambda yield assert global") ++
  (" nonlocal async await del print const var function new typeof instanceof") ++
  (" undefined void interface type enum export default extends implements private") ++
  (" public protected static readonly abstract declare module namespace require") ++
  (" func struct package main defer chan select case switch fallthrough goto") ++
  (" range map slice mut impl trait self pub mod crate super unsafe extern ref") ++
  (" match loop move box dyn int str bool float string number boolean array list") ++
  (" dict object any void"))

/-- The KNOWN_ABBREVIATIONS dictionary of the source, in insertion order. -/
def KNOWN_ABBREVIATIONS : List (Str × Str) := [
  ab ("config") ("configuration"),
  ab ("configs") ("configurations"),
  ab ("dir") ("directory"),
  ab ("dirs") ("directories"),
  ab ("doc") ("document"),
  ab ("docs") ("documents"),
  ab ("src") ("source"),
  ab ("dest") ("destination"),
  ab ("tmp") ("temporary"),
  ab ("temp") ("temporary"),
  ab ("bin") ("binary"),
  ab ("lib") ("library"),
  ab ("libs") ("libraries"),
  ab ("pkg") ("package"),
  ab ("pkgs") ("packages"),
  ab ("mod") ("module"),
  ab ("mods") ("modules"),
  ab ("func") ("function"),
  ab ("funcs") ("functions"),
  ab ("fn") ("function"),
  ab ("arg") ("argument"),
  ab ("args") ("arguments"),
  ab ("param") ("parameter"),
  ab ("params") ("parameters"),
  ab ("attr") ("attribute"),
  ab ("attrs") ("attributes"),
  ab ("prop") ("property"),
  ab ("props") ("properties"),
  ab ("var") ("variable"),
  ab ("vars") ("variables"),
  ab ("val") ("value"),
  ab ("vals") ("values"),
  ab ("obj") ("object"),
  ab ("objs") ("objects"),
  ab ("str") ("string"),
  ab ("num") ("number"),
  ab ("int") ("integer"),
  ab ("bool") ("boolean"),
  ab ("arr") ("array"),
  ab ("elem") ("element"),
  ab ("elems") ("elements"),
  ab ("idx") ("index"),
  ab ("len") ("length"),
  ab ("ptr") ("pointer"),
  ab ("ref") ("reference"),
  ab ("refs") ("references"),
  ab ("init") ("initialize"),
  ab ("exec") ("execute"),
  ab ("impl") ("implementation"),
  ab ("eval") ("evaluate"),
  ab ("calc") ("calculate"),
  ab ("gen") ("generate"),
  ab ("del") ("delete"),
  ab ("rm") ("remove"),
  ab ("mv") ("move"),
  ab ("cp") ("copy"),
  ab ("cmp") ("compare"),
  ab ("concat") ("concatenate"),
  ab ("iter") ("iterate"),
  ab ("alloc") ("allocate"),
  ab ("dealloc") ("deallocate"),
  ab ("msg") ("message"),
  ab ("msgs") ("messages"),
  ab ("req") ("request"),
  ab ("reqs") ("requests"),
  ab ("res") ("response"),
  ab ("resp") ("response"),
  ab ("err") ("error"),
  ab ("errs") ("errors"),
  ab ("warn") ("warning"),
  ab ("warns") ("warnings"),
  ab ("info") ("information"),
  ab ("desc") ("description"),
  ab ("cmd") ("command"),
  ab ("cmds") ("commands"),
  ab ("env") ("environment"),
  ab ("envs") ("environments"),
  ab ("proc") ("process"),
  ab ("procs") ("processes"),
  ab ("sys") ("system"),
  ab ("mem") ("memory"),
  ab ("cpu") ("processor"),
  ab ("db") ("database"),
  ab ("conn") ("connection"),
  ab ("conns") ("connections"),
  ab ("sess") ("session"),
  ab ("auth") ("authentication"),
  ab ("authz") ("authorization"),
  ab ("perms") ("permissions"),
  ab ("creds") ("credentials"),
  ab ("repo") ("repository"),
  ab ("repos") ("repositories"),
  ab ("ver") ("version"),
  ab ("rev") ("revision"),
  ab ("prev") ("previous"),
  ab ("curr") ("current"),
  ab ("orig") ("original"),
  ab ("max") ("maximum"),
  ab ("min") ("minimum"),
  ab ("avg") ("average"),
  ab ("cnt") ("count"),
  ab ("qty") ("quantity"),
  ab ("sz") ("size"),
  ab ("org") ("organization"),
  ab ("orgs") ("organizations"),
  ab ("opt") ("option"),
  ab ("opts") ("options"),
  ab ("pref") ("preference"),
  ab ("prefs") ("preferences"),
  ab ("dev") ("development"),
  ab ("prod") ("production"),
  ab ("stg") ("staging"),
  ab ("qa") ("quality"),
  ab ("util") ("utility"),
  ab ("utils") ("utilities"),
  ab ("spec") ("specification"),
  ab ("specs") ("specifications"),
  ab ("impls") ("implementations"),
  ab ("perf") ("performance"),
  ab ("async") ("asynchronous"),
  ab ("sync") ("synchronous"),
  ab ("addr") ("address"),
  ab ("addrs") ("addresses"),
  ab ("url") ("uniform"),
  ab ("http") ("hypertext"),
  ab ("api") ("interface"),
  ab ("rpc") ("remote"),
  ab ("btn") ("button"),
  ab ("btns") ("buttons"),
  ab ("nav") ("navigation"),
  ab ("img") ("image"),
  ab ("imgs") ("images"),
  ab ("txt") ("text"),
  ab ("lbl") ("label"),
  ab ("ctx") ("context")]

/-- CONFIDENCE_SCORES of the source. -/
def CONFIDENCE_SCORES : List (Str × Conf) := [
  qv ("case_variation") (68 : Conf),
  qv ("abbreviation") (80 : Conf),
  qv ("hyphenation_variant") (88 : Conf),
  qv ("compound_variant") (76 : Conf),
  qv ("stem_variation") (40 : Conf),
  qv ("levenshtein_distance_1") (48 : Conf),
  qv ("levenshtein_distance_2") (30 : Conf)]

/-- CONTEXT_MODIFIERS of the source. -/
def CONTEXT_MODIFIERS : List (Str × Conf) := [
  qv ("same_paragraph") (10 : Conf),
  qv ("same_section") (5 : Conf),
  qv ("distant_sections") (-5 : Conf),
  qv ("frequency_imbalance_high") (10 : Conf),
  qv ("frequency_imbalance_moderate") (5 : Conf),
  qv ("one_term_in_code") (-15 : Conf),
  qv ("both_terms_in_code") (-5 : Conf),
  qv ("one_term_in_heading") (-5 : Conf),
  qv ("short_term_levenshtein") (-10 : Conf),
  qv ("first_mention_expansion") (-20 : Conf),
  qv ("definition_context") (-10 : Conf)]
/-- Association-list lookup with a default, for the confidence tables. -/
def lookupQ (m : List (Str × Conf)) (k : Str) (d : Conf) : Conf :=
  ((m.find? (fun p => p.1 == k)).map Prod.snd).getD d

/-- Direct (always-present) lookup `CONTEXT_MODIFIERS[name]`. -/
def contextModifier (name : Str) : Conf := lookupQ CONTEXT_MODIFIERS name 0

/-- The reason bucket used for the confidence lookup: the levenshtein
reasons collapse to two buckets. -/
def baseReason (reason : Str) : Str :=
  if (str "levenshtein_distance_").isPrefixOf reason then
    if '1' ∈ reason then str "levenshtein_distance_1"
    else str "levenshtein_distance_2"
  else reason

/-- The fixed base confidence for a reason (0.50 for an unrecognized one). -/
def baseConfidence (reason : Str) : Conf :=
  lookupQ CONFIDENCE_SCORES (baseReason reason) (50 : Conf)

/-- Model of `get_adjusted_confidence`: base score for the reason plus the
modifier, clamped to `[0, 1]` (in hundredths: `[0, 100]`). -/
def get_adjusted_confidence (reason : Str) (modifier : Conf) : Conf :=
  max 0 (min 100 (baseConfidence reason + modifier))

/-! ### Confidence modifiers -/

/-- `abs(l1 - l2)` over naturals. -/
def natDist (a b : Nat) : Nat := max a b - min a b

/-- Python `needle in hay`: contiguous substring test. -/
def isSubstring (needle hay : Str) : Bool :=
  (List.range (hay.length + 1)).any (fun i => ((hay.drop i).take needle.length) == needle)

/-- Sum of the `CONTEXT_MODIFIERS` weights of a list of modifier names;
the Python loop adds each weight at the moment the name is appended, so the
running total equals this sum. -/
def modsWeight (l : List Str) : Conf := (l.map contextModifier).sum

/-- The proximity modifiers: `same_section`, and additionally
`same_paragraph` when some occurrence lines are within 5 of each other (the
two-level `for … break` of the source appends it exactly once). -/
def proximityMods (o1 o2 : List TermOccurrence) : List Str :=
  let t1_sections := o1.map (fun o => o.sect)
  let t2_sections := o2.map (fun o => o.sect)
  let sharedNontrivial := t1_sections.any (fun s =>
    t2_sections.contains s && !(s == str "(no section)") && !(s == str ""))
  if sharedNontrivial then
    if (o1.map (fun o => o.line_number)).any (fun l1 =>
        (o2.map (fun o => o.line_number)).any (fun l2 => natDist l1 l2 ≤ 5)) then
      [str "same_section", str "same_paragraph"]
    else [str "same_section"]
  else []

/-- The `distant_sections` modifier: every occurrence pair is more than 100
lines apart. -/
def distantMods (o1 o2 : List TermOccurrence) : List Str :=
  let t1_lines := o1.map (fun o => o.line_number)
  let t2_lines := o2.map (fun o => o.line_number)
  if !t1_lines.isEmpty && !t2_lines.isEmpty &&
      t1_lines.all (fun l1 => t2_lines.all (fun l2 => 100 < natDist l1 l2)) then
    [str "distant_sections"]
  else []

/-- The frequency-imbalance modifiers from the stored occurrence counts
(`max/min > 10` and `> 5` as the equivalent integer comparisons). -/
def freqMods (count1 count2 : Nat) : List Str :=
  if 0 < count1 && 0 < count2 then
    if 10 * min count1 count2 < max count1 count2 then
      [str "frequency_imbalance_high"]
    else if 5 * min count1 count2 < max count1 count2 then
      [str "frequency_imbalance_moderate"]
    else []
  else []

/-- The `short_term_levenshtein` modifier. -/
def shortMods (term1 term2 reason : Str) : List Str :=
  if isSubstring (str "levenshtein") reason && (term1.length < 5 || term2.length < 5) then
    [str "short_term_levenshtein"]
  else []

/-- The code-context modifiers: a stored sentence snippet containing a
backtick marks a term as appearing in code. -/
def codeMods (o1 o2 : List TermOccurrence) : List Str :=
  let t1_in_code := o1.any (fun o => o.sentence.contains backtick)
  let t2_in_code := o2.any (fun o => o.sentence.contains backtick)
  if t1_in_code && t2_in_code then [str "both_terms_in_code"]
  else if t1_in_code || t2_in_code then [str "one_term_in_code"]
  else []

/-- Model of `calculate_confidence_modifiers`.  The occurrence dictionaries
of the source are typed records here, so the `isinstance(occ, dict)` filters
are identically true; the Python loop adds each modifier's weight at the
moment it appends the name, so the returned total is the weight sum of the
returned list, built segment by segment in the source's order. -/
def calculate_confidence_modifiers (term1 term2 : Str)
    (term1_occurrences term2_occurrences : List TermOccurrence) (reason : Str) :
    Conf × List Str :=
  if term1_occurrences.isEmpty || term2_occurrences.isEmpty then (0, [])
  else
    let mods := proximityMods term1_occurrences term2_occurrences
      ++ distantMods term1_occurrences term2_occurrences
      ++ freqMods term1_occurrences.length term2_occurrences.length
      ++ shortMods term1 term2 reason
      ++ codeMods term1_occurrences term2_occurrences
    (modsWeight mods, mods)

/-! ### Table and sorting helpers -/

/-- Insertion-ordered counter (Python `Counter` / dict preserves first
insertion order of keys). -/
abbrev TermCounts := List (Str × Nat)

/-- Insertion-ordered occurrence map. -/
abbrev OccMap := List (Str × List TermOccurrence)

/-- `term_occurrences.get(term, [])`. -/
def getOcc (om : OccMap) (w : Str) : List TermOccurrence :=
  (((om.find? (fun p => p.1 == w)).map Prod.snd).getD [])

/-- Appends a value to a group keyed by `key`, creating the group at the
end on first sight (Python `dict` insertion-order semantics). -/
def addToGroup (groups : List (Str × List (Str × Nat))) (key : Str) (v : Str × Nat) :
    List (Str × List (Str × Nat)) :=
  match groups with
  | [] => [(key, [v])]
  | (k, vs) :: rest =>
      if k == key then (k, vs ++ [v]) :: rest else (k, vs) :: addToGroup rest key v

/-- Stable insertion for a descending sort by a `Nat` key: the element goes
after every earlier element whose key is not smaller (Python
`list.sort(key=…, reverse=True)` keeps equal keys in original order). -/
def insertDescBy {α : Type} (key : α → Nat) (x : α) : List α → List α
  | [] => [x]
  | y :: ys => if key y < key x then x :: y :: ys else y :: insertDescBy key x ys

/-- Stable descending sort by a `Nat` key. -/
def sortDescBy {α : Type} (key : α → Nat) (l : List α) : List α :=
  l.foldl (fun acc x => insertDescBy key x acc) []

/-- Python string `<` (lexicographic over code points). -/
def strLt : Str → Str → Bool
  | [], [] => false
  | [], _ :: _ => true
  | _ :: _, [] => false
  | a :: s, b :: t =>
      if a.val < b.val then true else if b.val < a.val then false else strLt s t

/-- `tuple(sorted([a, b]))` over two strings. -/
def pairKeyOf (a b : Str) : Str × Str := if strLt b a then (b, a) else (a, b)

/-- The dedup key of a candidate: its unordered case-insensitive term set. -/
def pairKey (c : CandidatePair) : Str × Str := pairKeyOf (lowerStr c.term1) (lowerStr c.term2)

/-! ### Candidate generators -/

/-- Model of `find_case_variations`. -/
def find_case_variations (term_counts : TermCounts) (term_occurrences : OccMap)
    (ignore_terms : List Str) : List CandidatePair :=
  let by_lower := term_counts.foldl (fun groups tc =>
    if ignore_terms.contains (lowerStr tc.1) then groups
    else addToGroup groups (lowerStr tc.1) tc) []
  by_lower.flatMap (fun g =>
    if 1 < g.2.length then
      match sortDescBy (fun v => v.2) g.2 with
      | [] => []
      | most :: rest =>
          rest.map (fun tc =>
            { term1 := most.1, term1_count := most.2,
              term1_occurrences := (getOcc term_occurrences most.1).take 3,
              term2 := tc.1, term2_count := tc.2,
              term2_occurrences := (getOcc term_occurrences tc.1).take 3,
              reason := str "case_variation", suggestion := some most.1 })
    else [])

/-- `{t.lower(): (t, c) for t, c in term_counts.items()}[low]`: the *last*
entry wins when several terms share a lowercase form. -/
def lastWithLower (tc : TermCounts) (low : Str) : Option (Str × Nat) :=
  (tc.filter (fun p => lowerStr p.1 == low)).getLast?

/-- `{**KNOWN_ABBREVIATIONS, **config.domain_abbreviations}`: base keys in
order with domain overrides, then new domain keys in order. -/
def mergeAbbrevs (base dom : List (Str × Str)) : List (Str × Str) :=
  (base.map (fun p =>
    (p.1, (((dom.filter (fun q => q.1 == p.1)).getLast?).map Prod.snd).getD p.2)))
  ++ dom.filter (fun q => !(base.any (fun p => p.1 == q.1)))

/-- Model of `find_abbreviations`. -/
def find_abbreviations (term_counts : TermCounts) (term_occurrences : OccMap)
    (config : TerminologyConfig) : List CandidatePair :=
  let all_abbreviations := mergeAbbrevs KNOWN_ABBREVIATIONS config.domain_abbreviations
  all_abbreviations.flatMap (fun p =>
    match lastWithLower term_counts (lowerStr p.1),
        lastWithLower term_counts (lowerStr p.2) with
    | some (abbrev_term, abbrev_count), some (exp_term, exp_count) =>
        let suggestion := if exp_count < abbrev_count then abbrev_term else exp_term
        [{ term1 := abbrev_term, term1_count := abbrev_count,
           term1_occurrences := (getOcc term_occurrences abbrev_term).take 3,
           term2 := exp_term, term2_count := exp_count,
           term2_occurrences := (getOcc term_occurrences exp_term).take 3,
           reason := str "abbreviation", suggestion := some suggestion }]
    | _, _ => [])

/-- First-occurrence dedup, modelling a Python set whose iteration order is
irrelevant here (it is only compared through a symmetric test). -/
def dedupFirstOcc (l : List Str) : List Str :=
  l.foldl (fun acc x => if acc.contains x then acc else acc ++ [x]) []

/-- Model of `find_stem_variations`. -/
def find_stem_variations (term_counts : TermCounts) (term_occurrences : OccMap)
    (ignore_terms : List Str) : List CandidatePair :=
  let by_stem := term_counts.foldl (fun groups tc =>
    if ignore_terms.contains (lowerStr tc.1) then groups
    else
      let stem := simple_stem (lowerStr tc.1)
      if 3 ≤ stem.length then addToGroup groups stem tc else groups) []
  by_stem.flatMap (fun g =>
    if 1 < g.2.length then
      let variants := sortDescBy (fun v => v.2) g.2
      let lowers := dedupFirstOcc (variants.map (fun v => lowerStr v.1))
      let plural_skip :=
        match lowers with
        | [l0, l1] => l0 ++ str "s" == l1 || l1 ++ str "s" == l0
        | _ => false
      if plural_skip then []
      else
        match variants with
        | [] => []
        | most :: rest =>
            rest.flatMap (fun tc =>
              if lowerStr tc.1 == lowerStr most.1 ++ str "s" then []
              else if lowerStr most.1 == lowerStr tc.1 ++ str "s" then []
              else
                [{ term1 := most.1, term1_count := most.2,
                   term1_occurrences := (getOcc term_occurrences most.1).take 3,
                   term2 := tc.1, term2_count := tc.2,
                   term2_occurrences := (getOcc term_occurrences tc.1).take 3,
                   reason := str "stem_variation", suggestion := none }])
    else [])

/-- Model of `find_hyphenation_variants`. -/
def find_hyphenation_variants (term_counts : TermCounts) (term_occurrences : OccMap)
    (ignore_terms : List Str) : List CandidatePair :=
  let by_normalized := term_counts.foldl (fun groups tc =>
    if ignore_terms.contains (lowerStr tc.1) then groups
    else if tc.1.contains '-' || 6 < tc.1.length then
      addToGroup groups (normalize_compound tc.1) tc
    else groups) []
  by_normalized.flatMap (fun g =>
    let hyphenated := g.2.filter (fun v => v.1.contains '-')
    let non_hyphenated := g.2.filter (fun v => !(v.1.contains '-'))
    if !hyphenated.isEmpty && !non_hyphenated.isEmpty then
      match sortDescBy (fun v => v.2) (hyphenated ++ non_hyphenated) with
      | [] => []
      | most :: rest =>
          rest.flatMap (fun tc =>
            if lowerStr tc.1 == lowerStr most.1 then []
            else
              [{ term1 := most.1, term1_count := most.2,
                 term1_occurrences := (getOcc term_occurrences most.1).take 3,
                 term2 := tc.1, term2_count := tc.2,
                 term2_occurrences := (getOcc term_occurrences tc.1).take 3,
                 reason := str "hyphenation_variant", suggestion := some most.1 }])
    else [])

/-- Python whitespace characters recognised by `str.split()`. -/
def isPySpace (c : Char) : Bool :=
  c == ' ' || c == '\t' || c == '\n' || c == '\r' || c == Char.ofNat 11 || c == Char.ofNat 12

/-- Worker for `splitWs`, accumulating the current word reversed. -/
def splitWsAux : Str → Str → List Str
  | [], cur => if cur.isEmpty then [] else [cur.reverse]
  | c :: rest, cur =>
      if isPySpace c then
        if cur.isEmpty then splitWsAux rest [] else cur.reverse :: splitWsAux rest []
      else splitWsAux rest (c :: cur)

/-- Python `str.split()`: split on whitespace runs, dropping empties. -/
def splitWs (s : Str) : List Str := splitWsAux s []

/-- One configured equivalence group of `find_compound_variants`: pair every
non-dominant resolved form against the most frequent one, threading the
`seen` key set. -/
def emitEquivGroup (most : Str × Nat × Str) (rest : List (Str × Nat × Str))
    (term_occurrences bigram_occurrences : OccMap) (seen : List (Str × Str)) :
    List CandidatePair × List (Str × Str) :=
  match rest with
  | [] => ([], seen)
  | f :: fs =>
      let k := pairKeyOf (lowerStr most.1) (lowerStr f.1)
      if seen.contains k then
        emitEquivGroup most fs term_occurrences bigram_occurrences seen
      else
        let occ1 := if most.2.2 == str "bigram" then getOcc bigram_occurrences most.1
          else getOcc term_occurrences most.1
        let occ2 := if f.2.2 == str "bigram" then getOcc bigram_occurrences f.1
          else getOcc term_occurrences f.1
        let c : CandidatePair :=
          { term1 := most.1, term1_count := most.2.1, term1_occurrences := occ1.take 3,
            term2 := f.1, term2_count := f.2.1, term2_occurrences := occ2.take 3,
            reason := str "compound_variant", suggestion := some most.1 }
        let r := emitEquivGroup most fs term_occurrences bigram_occurrences (k :: seen)
        (c :: r.1, r.2)

/-- The configured-equivalents path (part (a)) of `find_compound_variants`:
resolve each listed form against the bigram table (forms with a space) or the
term table, and pair the resolved forms when at least two exist. -/
def compoundPartA (groups : List (List Str)) (term_counts bigram_counts : TermCounts)
    (term_occurrences bigram_occurrences : OccMap) (seen : List (Str × Str)) :
    List CandidatePair × List (Str × Str) :=
  match groups with
  | [] => ([], seen)
  | equivalents :: gs =>
      let found_forms := equivalents.foldl (fun acc form =>
        if form.contains ' ' then
          match bigram_counts.find? (fun p => lowerStr p.1 == lowerStr form) with
          | some b => acc ++ [(b.1, b.2, str "bigram")]
          | none => acc
        else
          match term_counts.find? (fun p => lowerStr p.1 == lowerStr form) with
          | some t => acc ++ [(t.1, t.2, str "term")]
          | none => acc) []
      if 2 ≤ found_forms.length then
        match sortDescBy (fun f => f.2.1) found_forms with
        | [] =>
            compoundPartA gs term_counts bigram_counts term_occurrences bigram_occurrences seen
        | most :: rest =>
            let r1 := emitEquivGroup most rest term_occurrences bigram_occurrences seen
            let r2 := compoundPartA gs term_counts bigram_counts term_occurrences
              bigram_occurrences r1.2
            (r1.1 ++ r2.1, r2.2)
      else
        compoundPartA gs term_counts bigram_counts term_occurrences bigram_occurrences seen

/-- Inner loop of part (b) of `find_compound_variants`: scan the term table
for terms whose stripped form matches the bigram's. -/
def compoundPartBInner (bigram : Str) (bigram_count : Nat) (normalized : Str)
    (terms : TermCounts) (term_occurrences bigram_occurrences : OccMap)
    (seen : List (Str × Str)) : List CandidatePair × List (Str × Str) :=
  match terms with
  | [] => ([], seen)
  | (term, term_count) :: ts =>
      if normalize_compound term == normalized &&
          !(lowerStr term == (lowerStr bigram).filter (fun c => !(c == ' '))) then
        let k := pairKeyOf (lowerStr bigram) (lowerStr term)
        if seen.contains k then
          compoundPartBInner bigram bigram_count normalized ts term_occurrences
            bigram_occurrences seen
        else
          match splitWs (lowerStr bigram) with
          | [p1, p2] =>
              if p1 ++ p2 == lowerStr term then
                let suggestion := if term_count < bigram_count then bigram else term
                let c : CandidatePair :=
                  { term1 := bigram, term1_count := bigram_count,
                    term1_occurrences := (getOcc bigram_occurrences bigram).take 3,
                    term2 := term, term2_count := term_count,
                    term2_occurrences := (getOcc term_occurrences term).take 3,
                    reason := str "compound_variant", suggestion := some suggestion }
                let r := compoundPartBInner bigram bigram_count normalized ts
                  term_occurrences bigram_occurrences (k :: seen)
                (c :: r.1, r.2)
              else
                compoundPartBInner bigram bigram_count normalized ts term_occurrences
                  bigram_occurrences seen
          | _ =>
              compoundPartBInner bigram bigram_count normalized ts term_occurrences
                bigram_occurrences seen
      else
        compoundPartBInner bigram bigram_count normalized ts term_occurrences
          bigram_occurrences seen

/-- The independent bigram-to-single-word path (part (b)) of
`find_compound_variants`. -/
def compoundPartB (bigrams : TermCounts) (term_counts : TermCounts)
    (term_occurrences bigram_occurrences : OccMap) (seen : List (Str × Str)) :
    List CandidatePair × List (Str × Str) :=
  match bigrams with
  | [] => ([], seen)
  | (bigram, bigram_count) :: bs =>
      let normalized := normalize_compound bigram
      if normalized.length < 6 then
        compoundPartB bs term_counts term_occurrences bigram_occurrences seen
      else
        let r1 := compoundPartBInner bigram bigram_count normalized term_counts
          term_occurrences bigram_occurrences seen
        let r2 := compoundPartB bs term_counts term_occurrences bigram_occurrences r1.2
        (r1.1 ++ r2.1, r2.2)

/-- Model of `find_compound_variants`: configured equivalents first, then the
bigram scan, sharing one `seen` set. -/
def find_compound_variants (term_counts : TermCounts) (term_occurrences : OccMap)
    (bigram_counts : TermCounts) (bigram_occurrences : OccMap)
    (config : TerminologyConfig) : List CandidatePair :=
  let r1 := compoundPartA config.compound_equivalents term_counts bigram_counts
    term_occurrences bigram_occurrences []
  let r2 := compoundPartB bigram_counts term_counts term_occurrences
    bigram_occurrences r1.2
  r1.1 ++ r2.1

/-- Decimal rendering of a natural (for the levenshtein reason suffix). -/
def natStr (n : Nat) : Str := (Nat.repr n).data

/-- Inner loop of `find_levenshtein_similar` for a fixed `term1` against the
remaining terms. -/
def levenshteinInner (term1 : Str) (count1 : Nat) (rest : TermCounts)
    (term_occurrences : OccMap) (ignore_terms : List Str) (max_distance : Nat)
    (seen : List (Str × Str)) : List CandidatePair × List (Str × Str) :=
  match rest with
  | [] => ([], seen)
  | (term2, count2) :: ts =>
      if ignore_terms.contains (lowerStr term2) || lowerStr term1 == lowerStr term2 ||
          max_distance < natDist term1.length term2.length ||
          term1.length < 4 || term2.length < 4 then
        levenshteinInner term1 count1 ts term_occurrences ignore_terms max_distance seen
      else
        let distance := levenshtein_distance (lowerStr term1) (lowerStr term2)
        if 0 < distance && distance ≤ max_distance then
          let k := pairKeyOf (lowerStr term1) (lowerStr term2)
          if seen.contains k then
            levenshteinInner term1 count1 ts term_occurrences ignore_terms max_distance seen
          else
            let c : CandidatePair :=
              { term1 := term1, term1_count := count1,
                term1_occurrences := (getOcc term_occurrences term1).take 3,
                term2 := term2, term2_count := count2,
                term2_occurrences := (getOcc term_occurrences term2).take 3,
                reason := str "levenshtein_distance_" ++ natStr distance,
                suggestion := none }
            let r := levenshteinInner term1 count1 ts term_occurrences ignore_terms
              max_distance (k :: seen)
            (c :: r.1, r.2)
        else
          levenshteinInner term1 count1 ts term_occurrences ignore_terms max_distance seen

/-- Outer loop of `find_levenshtein_similar`: each term against the terms
after it. -/
def levenshteinOuter (terms : TermCounts) (term_occurrences : OccMap)
    (ignore_terms : List Str) (max_distance : Nat) (seen : List (Str × Str)) :
    List CandidatePair × List (Str × Str) :=
  match terms with
  | [] => ([], seen)
  | (term1, count1) :: rest =>
      if ignore_terms.contains (lowerStr term1) then
        levenshteinOuter rest term_occurrences ignore_terms max_distance seen
      else
        let r1 := levenshteinInner term1 count1 rest term_occurrences ignore_terms
          max_distance seen
        let r2 := levenshteinOuter rest term_occurrences ignore_terms max_distance r1.2
        (r1.1 ++ r2.1, r2.2)

/-- Model of `find_levenshtein_similar`. -/
def find_levenshtein_similar (term_counts : TermCounts) (term_occurrences : OccMap)
    (ignore_terms : List Str) (max_distance : Nat) : List CandidatePair :=
  (levenshteinOuter term_counts term_occurrences ignore_terms max_distance []).1

/-! ### Deduplication, scoring and ranking -/

/-- The dedup loop of `check_terminology`: keep the first candidate for each
unordered case-insensitive key. -/
def dedupFirst : List CandidatePair → List (Str × Str) → List CandidatePair
  | [], _ => []
  | c :: cs, seen =>
      if seen.contains (pairKey c) then dedupFirst cs seen
      else c :: dedupFirst cs (pairKey c :: seen)

/-- The scoring loop body of `check_terminology` for one candidate. -/
def scoreCandidate (c : CandidatePair) : CandidatePair :=
  let m := calculate_confidence_modifiers c.term1 c.term2 c.term1_occurrences
    c.term2_occurrences c.reason
  { c with base_confidence := get_adjusted_confidence c.reason 0,
           adjusted_confidence := get_adjusted_confidence c.reason m.1,
           modifiers_applied := m.2 }

/-- The ranking key `(adjusted_confidence, term1_count + term2_count)`. -/
def pairSortKey (c : CandidatePair) : Conf × Nat :=
  (c.adjusted_confidence, c.term1_count + c.term2_count)

/-- Python tuple `<` on the ranking key. -/
def keyLtB (x y : Conf × Nat) : Bool :=
  decide (x.1 < y.1) || (x.1 == y.1 && decide (x.2 < y.2))

/-- Stable insertion for the descending ranking sort. -/
def insertDesc (c : CandidatePair) : List CandidatePair → List CandidatePair
  | [] => [c]
  | d :: ds =>
      if keyLtB (pairSortKey d) (pairSortKey c) then c :: d :: ds
      else d :: insertDesc c ds

/-- `unique_candidates.sort(key=…, reverse=True)`: stable descending sort. -/
def sortCandidates (l : List CandidatePair) : List CandidatePair :=
  l.foldl (fun acc c => insertDesc c acc) []

/-- The concatenation of the six generator outputs in the fixed execution
order of `check_terminology`: case → abbreviation → stem → hyphenation →
compound → levenshtein. -/
def allCandidates (term_counts : TermCounts) (term_occurrences : OccMap)
    (bigram_counts : TermCounts) (bigram_occurrences : OccMap)
    (config : TerminologyConfig) : List CandidatePair :=
  find_case_variations term_counts term_occurrences config.ignore_terms
  ++ find_abbreviations term_counts term_occurrences config
  ++ find_stem_variations term_counts term_occurrences config.ignore_terms
  ++ find_hyphenation_variants term_counts term_occurrences config.ignore_terms
  ++ find_compound_variants term_counts term_occurrences bigram_counts
      bigram_occurrences config
  ++ find_levenshtein_similar term_counts term_occurrences config.ignore_terms 2

/-- The candidate pipeline of `check_terminology` from the extracted tables:
generate, dedup, score, rank. -/
def runPipeline (term_counts : TermCounts) (term_occurrences : OccMap)
    (bigram_counts : TermCounts) (bigram_occurrences : OccMap)
    (config : TerminologyConfig) : List CandidatePair :=
  sortCandidates ((dedupFirst
    (allCandidates term_counts term_occurrences bigram_counts bigram_occurrences config)
    []).map scoreCandidate)

/-! ### Context extraction

The Python extractor uses four regular expressions (inline-code spans, URLs,
path-like tokens, and the word tokenizers).  Each is modelled by a direct
left-to-right scanner with the same leftmost-match, greedy-with-backtracking
semantics; `\w` is modelled over ASCII. -/

/-- Splits content into lines at newline characters
(Python `content.split('\n')`; the empty string gives one empty line). -/
def splitLines : Str → List Str
  | [] => [[]]
  | c :: rest =>
      if c = '\n' then [] :: splitLines rest
      else
        match splitLines rest with
        | [] => [[c]]
        | l :: ls => (c :: l) :: ls

/-- Python `str.strip()`. -/
def stripStr (s : Str) : Str :=
  ((s.dropWhile isPySpace).reverse.dropWhile isPySpace).reverse

/-- Python `str.startswith`. -/
def startsWithStr (p s : Str) : Bool := s.take p.length == p

/-- The span consumed by a match of the regex fragment `[^`]+` ` right after
an opening backtick, when it matches there (length of the inner run plus the
closing backtick). -/
def inlineCodeSpan (rest : Str) : Option Nat :=
  let inner := rest.takeWhile (fun x => !(x == backtick))
  if inner.isEmpty then none
  else if inner.length < rest.length then some (inner.length + 1) else none

/-- Model of `re.sub(r'`[^`]+`', '', line)`. -/
def removeInlineCode : Str → Str
  | [] => []
  | c :: rest =>
      if c == backtick then
        match inlineCodeSpan rest with
        | some k => removeInlineCode (rest.drop k)
        | none => c :: removeInlineCode rest
      else c :: removeInlineCode rest
termination_by s => s.length
decreasing_by
  all_goals simp [List.length_drop]
  all_goals omega

/-- Model of `re.sub(r'https?://\S+', '', line)`. -/
def removeUrls : Str → Str
  | [] => []
  | c :: rest =>
      if startsWithStr (str "https://") (c :: rest) ||
          startsWithStr (str "http://") (c :: rest) then
        let k := if startsWithStr (str "https://") (c :: rest) then 8 else 7
        let after := (c :: rest).drop k
        let run := after.takeWhile (fun x => !(isPySpace x))
        if run.isEmpty then c :: removeUrls rest
        else removeUrls (after.drop run.length)
      else c :: removeUrls rest
termination_by s => s.length
decreasing_by
  all_goals simp [List.length_drop]
  all_goals split
  all_goals omega

/-- ASCII model of the regex class `\w`. -/
def isWordCh (c : Char) : Bool := c.isAlphanum || c == '_'

/-- The regex class `[\w/]`. -/
def isWordSlash (c : Char) : Bool := isWordCh c || c == '/'

/-- Model of `re.sub(r'[\w/]+\.\w+', '', line)`.  A match can only start at
the head of a maximal `[\w/]` run (an inner start sees the same run end), so
the scanner treats whole runs. -/
def removeFilePaths : Str → Str
  | [] => []
  | c :: rest =>
      if isWordSlash c then
        let tw := rest.takeWhile isWordSlash
        let after := rest.drop tw.length
        if after.isEmpty then c :: tw
        else if after.headD ' ' == '.' then
          let tail := after.tail
          let ext := tail.takeWhile isWordCh
          if ext.isEmpty then (c :: tw) ++ after.take 1 ++ removeFilePaths tail
          else removeFilePaths (tail.drop ext.length)
        else (c :: tw) ++ removeFilePaths after
      else c :: removeFilePaths rest
termination_by s => s.length
decreasing_by
  all_goals simp [List.length_drop, List.length_tail]
  all_goals omega

/-- The regex token class `[a-zA-Z0-9-]` of the term tokenizer. -/
def isTokenCh (c : Char) : Bool := c.isAlphanum || c == '-'

/-- A word boundary `\b` holds before a position whose previous character is
not a `\w` character (or at the start of the line). -/
def boundary : Option Char → Bool
  | none => true
  | some p => !(isWordCh p)

/-- The character right after a candidate token of length `k` cut from
`run ++ afterRun`. -/
def nextCharAfter (run afterRun : Str) (k : Nat) : Option Char :=
  (run.drop k ++ afterRun).head?

/-- Whether a token end at length `k` satisfies the tokenizer pattern: the
final character is `[a-zA-Z0-9]` and a word boundary follows. -/
def validEnd (run afterRun : Str) (k : Nat) : Bool :=
  match (run.take k).getLast? with
  | some lc =>
      lc.isAlphanum &&
        (match nextCharAfter run afterRun k with
         | none => true
         | some nc => !(isWordCh nc))
  | none => false

/-- Greedy backtracking of `[a-zA-Z][a-zA-Z0-9-]*[a-zA-Z0-9]\b`: the largest
token length in `[2, run.length]` with a valid end. -/
def bestEnd (run afterRun : Str) : Option Nat :=
  ((List.range (run.length - 1)).map (fun i => run.length - i)).find?
    (fun k => validEnd run afterRun k)

theorem bestEnd_ge_two (run afterRun : Str) (k : Nat) (h : bestEnd run afterRun = some k) :
    2 ≤ k ∧ k ≤ run.length := by
  have hmem := List.mem_of_find?_eq_some h
  rw [List.mem_map] at hmem
  obtain ⟨i, hi, hk⟩ := hmem
  rw [List.mem_range] at hi
  omega

/-- The term tokenizer
`re.findall(r'\b[a-zA-Z][a-zA-Z0-9-]*[a-zA-Z0-9]\b|\b[a-zA-Z]\b', line)`:
left-to-right scan carrying the previous character; at a letter with a
boundary before it, try the long alternative greedily, then the single
letter.  On a match of length `k` the scan resumes right after the match
(`rest.drop (k - 1)`, with `k ≥ 2` by construction of `bestEnd`). -/
def scanTermsAux (prev : Option Char) : Str → List Str
  | [] => []
  | c :: rest =>
      if c.isAlpha && boundary prev then
        let tw := rest.takeWhile isTokenCh
        let run := c :: tw
        let afterRun := rest.drop tw.length
        if (bestEnd run afterRun).isSome then
          let k := (bestEnd run afterRun).getD 2
          let tok := (c :: rest).take k
          tok :: scanTermsAux tok.getLast? (rest.drop (k - 1))
        else if boundary rest.head? then [c] :: scanTermsAux (some c) rest
        else scanTermsAux (some c) rest
      else scanTermsAux (some c) rest
termination_by s => s.length
decreasing_by
  all_goals simp only [List.length_drop, List.length_cons]
  all_goals omega

/-- Tokens of a processed line for term extraction. -/
def scanTerms (line : Str) : List Str := scanTermsAux none line

/-- The bigram word tokenizer `re.findall(r'\b[a-zA-Z][a-zA-Z0-9]*\b', line)`:
a maximal alphanumeric run starting at a letter on a boundary, accepted when
a boundary follows (otherwise nothing inside the run can match either). -/
def scanBigramWordsAux (prev : Option Char) : Str → List Str
  | [] => []
  | c :: rest =>
      if c.isAlpha && boundary prev then
        let tw := rest.takeWhile (fun x => x.isAlphanum)
        let run := c :: tw
        let afterRun := rest.drop tw.length
        if boundary afterRun.head? then run :: scanBigramWordsAux run.getLast? afterRun
        else scanBigramWordsAux (some c) rest
      else scanBigramWordsAux (some c) rest
termination_by s => s.length
decreasing_by
  all_goals simp only [List.length_drop, List.length_cons]
  all_goals omega

/-- Tokens of a processed line for bigram extraction. -/
def scanBigramWords (line : Str) : List Str := scanBigramWordsAux none line

/-- Model of `get_current_section`: the nearest heading line above, stripped
of its leading `#` markers and following whitespace. -/
def get_current_section (lines : List Str) (line_idx : Nat) : Str :=
  match ((lines.take line_idx).reverse).find? (fun l => startsWithStr (str "#") (stripStr l)) with
  | some l => ((stripStr l).dropWhile (fun c => c == '#')).dropWhile isPySpace
  | none => str "(no section)"

/-- First case-insensitive occurrence of the literal `term` in `line`
(`re.search(re.escape(term), line, re.IGNORECASE)`). -/
def findCI (line term : Str) : Option Nat :=
  (List.range (line.length + 1)).find?
    (fun i => lowerStr ((line.drop i).take term.length) == lowerStr term)

/-- Model of `get_sentence_context`: a ±30-character window around the first
case-insensitive match, ellipsis-marked on truncated sides; the first
`max_chars` characters when the term is not found. -/
def get_sentence_context (line term : Str) (max_chars : Nat) : Str :=
  match findCI line term with
  | none => stripStr (line.take max_chars)
  | some start =>
      let e := start + term.length
      let context_start := start - 30
      let context_end := min line.length (e + 30)
      let context := stripStr ((line.drop context_start).take (context_end - context_start))
      let context := if 0 < context_start then str "..." ++ context else context
      if context_end < line.length then context ++ str "..." else context

/-- The code-fence/cleaning pass shared by both extractors: fence lines and
lines inside fences are blanked; other lines lose inline code, URLs and
path-like tokens. -/
def processLinesAux : Bool → List Str → List Str
  | _, [] => []
  | in_code, l :: ls =>
      if startsWithStr (str "```") (stripStr l) then [] :: processLinesAux (!in_code) ls
      else if in_code then [] :: processLinesAux in_code ls
      else removeFilePaths (removeUrls (removeInlineCode l)) :: processLinesAux in_code ls

/-- The processed lines of a document. -/
def processLines (lines : List Str) : List Str := processLinesAux false lines

/-- `term_counts[word] += 1` over an insertion-ordered counter. -/
def bumpCount (tc : TermCounts) (w : Str) : TermCounts :=
  match tc with
  | [] => [(w, 1)]
  | (k, c) :: rest => if k == w then (k, c + 1) :: rest else (k, c) :: bumpCount rest w

/-- `term_occurrences.setdefault(word, []).append(occ)` in insertion order. -/
def appendOcc (om : OccMap) (w : Str) (o : TermOccurrence) : OccMap :=
  match om with
  | [] => [(w, [o])]
  | (k, os) :: rest => if k == w then (k, os ++ [o]) :: rest else (k, os) :: appendOcc rest w o

/-- Model of `extract_terms_with_context`. -/
def extract_terms_with_context (content : Str) : TermCounts × OccMap :=
  let lines := splitLines content
  let processed := processLines lines
  (processed.enum).foldl (fun acc p =>
    if (stripStr p.2).isEmpty then acc
    else
      (scanTerms p.2).foldl (fun acc2 word =>
        let lower := lowerStr word
        if !(STOPWORDS.contains lower) && 2 < lower.length then
          let occurrence : TermOccurrence :=
            { line_number := p.1 + 1,
              sentence := get_sentence_context (lines.getD p.1 []) word 80,
              sect := get_current_section lines p.1 }
          (bumpCount acc2.1 word, appendOcc acc2.2 word occurrence)
        else acc2) acc) (([], []) : TermCounts × OccMap)

/-- Model of `extract_bigrams_with_context`. -/
def extract_bigrams_with_context (content : Str) : TermCounts × OccMap :=
  let lines := splitLines content
  let processed := processLines lines
  (processed.enum).foldl (fun acc p =>
    if (stripStr p.2).isEmpty then acc
    else
      let ws := (scanBigramWords p.2).filter
        (fun w => !(STOPWORDS.contains (lowerStr w)) && 2 < w.length)
      (ws.zip ws.tail).foldl (fun acc2 pr =>
        let bigram := pr.1 ++ str " " ++ pr.2
        let occurrence : TermOccurrence :=
          { line_number := p.1 + 1,
            sentence := get_sentence_context (lines.getD p.1 []) bigram 80,
            sect := get_current_section lines p.1 }
        (bumpCount acc2.1 bigram, appendOcc acc2.2 bigram occurrence)) acc)
    (([], []) : TermCounts × OccMap)

/-- The computed part of the result structure of `check_terminology` (the
static metadata and guidance text are fixed reference data). -/
structure TerminologyResult where
  total_unique_terms : Nat
  total_bigrams_extracted : Nat
  candidates_for_review : List CandidatePair
  term_counts_top : List (Str × Nat)
deriving DecidableEq, Repr

/-- Model of `check_terminology` on one document's text (file discovery and
config loading belong to the collaborator layer): extract terms and bigrams,
run the six generators in order, dedup, score, rank, and package. -/
def check_terminology (content : Str) (config : TerminologyConfig) : TerminologyResult :=
  let t := extract_terms_with_context content
  let b := extract_bigrams_with_context content
  { total_unique_terms := t.1.length,
    total_bigrams_extracted := b.1.length,
    candidates_for_review := runPipeline t.1 t.2 b.1 b.2 config,
    term_counts_top := (sortDescBy (fun p => p.2) t.1).take 50 }

/-! ### Structural lemmas about the pipeline -/

theorem pairKey_scoreCandidate (c : CandidatePair) :
    pairKey (scoreCandidate c) = pairKey c := rfl

theorem reason_scoreCandidate (c : CandidatePair) :
    (scoreCandidate c).reason = c.reason := rfl

theorem modifiers_scoreCandidate (c : CandidatePair) :
    (scoreCandidate c).modifiers_applied =
      (calculate_confidence_modifiers c.term1 c.term2 c.term1_occurrences
        c.term2_occurrences c.reason).2 := rfl

theorem adjusted_scoreCandidate (c : CandidatePair) :
    (scoreCandidate c).adjusted_confidence =
      get_adjusted_confidence c.reason
        (calculate_confidence_modifiers c.term1 c.term2 c.term1_occurrences
          c.term2_occurrences c.reason).1 := rfl

/-- The returned total of `calculate_confidence_modifiers` is the weight sum
of the returned modifier list. -/
theorem calcmods_fst (t1 t2 : Str) (o1 o2 : List TermOccurrence) (r : Str) :
    (calculate_confidence_modifiers t1 t2 o1 o2 r).1 =
      modsWeight (calculate_confidence_modifiers t1 t2 o1 o2 r).2 := by
  unfold calculate_confidence_modifiers
  split
  · simp [modsWeight]
  · rfl

/-- The clamp of `get_adjusted_confidence` keeps every score within the unit
interval (in hundredths). -/
theorem get_adjusted_confidence_bounds (r : Str) (m : Conf) :
    0 ≤ get_adjusted_confidence r m ∧ get_adjusted_confidence r m ≤ 100 := by
  unfold get_adjusted_confidence
  constructor
  · exact le_max_left 0 _
  · exact max_le (by norm_num) (min_le_left _ _)

theorem insertDesc_perm (c : CandidatePair) (l : List CandidatePair) :
    List.Perm (insertDesc c l) (c :: l) := by
  induction l with
  | nil => exact List.Perm.refl _
  | cons d ds ih =>
    unfold insertDesc
    split
    · exact List.Perm.refl _
    · exact List.Perm.trans (List.Perm.cons d ih) (List.Perm.swap c d ds)

theorem sortCandidates_foldl_perm (l : List CandidatePair) :
    ∀ acc, List.Perm (l.foldl (fun a c => insertDesc c a) acc) (acc ++ l) := by
  induction l with
  | nil => intro acc; simp
  | cons c cs ih =>
    intro acc
    have h1 : List.Perm ((c :: cs).foldl (fun a c => insertDesc c a) acc)
        ((insertDesc c acc) ++ cs) := ih (insertDesc c acc)
    have h2 : List.Perm ((insertDesc c acc) ++ cs) ((c :: acc) ++ cs) :=
      List.Perm.append_right cs (insertDesc_perm c acc)
    exact (h1.trans h2).trans List.perm_middle.symm

theorem sortCandidates_perm (l : List CandidatePair) :
    List.Perm (sortCandidates l) l := by
  unfold sortCandidates
  have := sortCandidates_foldl_perm l []
  simpa using this

theorem mem_sortCandidates {c : CandidatePair} {l : List CandidatePair} :
    c ∈ sortCandidates l ↔ c ∈ l :=
  (sortCandidates_perm l).mem_iff

/-- Every survivor of the dedup loop has a key outside `seen` and is the
first entry of the input with its key. -/
theorem dedupFirst_mem_spec :
    ∀ (l : List CandidatePair) (seen : List (Str × Str)) (c : CandidatePair),
      c ∈ dedupFirst l seen →
        pairKey c ∉ seen ∧ l.find? (fun d => pairKey d == pairKey c) = some c := by
  intro l
  induction l with
  | nil => intro seen c hc; simp [dedupFirst] at hc
  | cons d ds ih =>
    intro seen c hc
    unfold dedupFirst at hc
    by_cases hd : seen.contains (pairKey d)
    · rw [if_pos hd] at hc
      obtain ⟨hns, hf⟩ := ih seen c hc
      have hne : pairKey d ≠ pairKey c := by
        intro he
        rw [he] at hd
        exact hns (by simpa using hd)
      constructor
      · exact hns
      · rw [List.find?_cons_of_neg, hf]
        simp [hne]
    · rw [if_neg hd] at hc
      rcases List.mem_cons.mp hc with hceq | hcs
      · subst hceq
        constructor
        · intro hmem
          exact hd (by simpa using hmem)
        · rw [List.find?_cons_of_pos]
          simp
      · obtain ⟨hns, hf⟩ := ih (pairKey d :: seen) c hcs
        have hne : pairKey d ≠ pairKey c := by
          intro he
          exact hns (by rw [← he]; exact List.mem_cons_self _ _)
        constructor
        · intro hmem
          exact hns (List.mem_cons_of_mem _ hmem)
        · rw [List.find?_cons_of_neg, hf]
          simp [hne]

/-- The dedup loop's output has pairwise distinct keys. -/
theorem dedupFirst_pairwise :
    ∀ (l : List CandidatePair) (seen : List (Str × Str)),
      (dedupFirst l seen).Pairwise (fun a b => pairKey a ≠ pairKey b) := by
  intro l
  induction l with
  | nil => intro seen; simp [dedupFirst]
  | cons d ds ih =>
    intro seen
    unfold dedupFirst
    by_cases hd : seen.contains (pairKey d)
    · rw [if_pos hd]; exact ih seen
    · rw [if_neg hd]
      refine List.Pairwise.cons ?_ (ih _)
      intro b hb
      have := (dedupFirst_mem_spec ds (pairKey d :: seen) b hb).1
      intro he
      exact this (by rw [← he]; exact List.mem_cons_self _ _)

/-- Elements of the dedup output come from the input. -/
theorem dedupFirst_subset {c : CandidatePair} {l : List CandidatePair}
    {seen : List (Str × Str)} (hc : c ∈ dedupFirst l seen) : c ∈ l :=
  List.mem_of_find?_eq_some (dedupFirst_mem_spec l seen c hc).2

/-! ### Every generator stores at most 3 occurrences per side -/

/-- The cap property of a candidate list. -/
def OccCapped (l : List CandidatePair) : Prop :=
  ∀ c ∈ l, c.term1_occurrences.length ≤ 3 ∧ c.term2_occurrences.length ≤ 3

theorem occCapped_append {l1 l2 : List CandidatePair} (h1 : OccCapped l1)
    (h2 : OccCapped l2) : OccCapped (l1 ++ l2) := by
  intro c hc
  rcases List.mem_append.mp hc with h | h
  · exact h1 c h
  · exact h2 c h

theorem occCapped_case (tc : TermCounts) (om : OccMap) (ig : List Str) :
    OccCapped (find_case_variations tc om ig) := by
  intro c hc
  unfold find_case_variations at hc
  rw [List.mem_flatMap] at hc
  obtain ⟨g, _, hcg⟩ := hc
  split at hcg
  · split at hcg
    · simp at hcg
    · rw [List.mem_map] at hcg
      obtain ⟨t, _, rfl⟩ := hcg
      exact ⟨List.length_take_le _ _, List.length_take_le _ _⟩
  · simp at hcg

theorem occCapped_abbreviations (tc : TermCounts) (om : OccMap)
    (config : TerminologyConfig) : OccCapped (find_abbreviations tc om config) := by
  intro c hc
  unfold find_abbreviations at hc
  rw [List.mem_flatMap] at hc
  obtain ⟨p, _, hcg⟩ := hc
  split at hcg
  · rw [List.mem_singleton] at hcg
    subst hcg
    exact ⟨List.length_take_le _ _, List.length_take_le _ _⟩
  · simp at hcg

theorem occCapped_stem (tc : TermCounts) (om : OccMap) (ig : List Str) :
    OccCapped (find_stem_variations tc om ig) := by
  intro c hc
  unfold find_stem_variations at hc
  rw [List.mem_flatMap] at hc
  obtain ⟨g, _, hcg⟩ := hc
  split at hcg
  · dsimp only [] at hcg
    split at hcg
    · simp at hcg
    · split at hcg
      · simp at hcg
      · rw [List.mem_flatMap] at hcg
        obtain ⟨t, _, hct⟩ := hcg
        split at hct
        · simp at hct
        · split at hct
          · simp at hct
          · rw [List.mem_singleton] at hct
            subst hct
            exact ⟨List.length_take_le _ _, List.length_take_le _ _⟩
  · simp at hcg

theorem occCapped_hyphenation (tc : TermCounts) (om : OccMap) (ig : List Str) :
    OccCapped (find_hyphenation_variants tc om ig) := by
  intro c hc
  unfold find_hyphenation_variants at hc
  rw [List.mem_flatMap] at hc
  obtain ⟨g, _, hcg⟩ := hc
  dsimp only [] at hcg
  split at hcg
  · split at hcg
    · simp at hcg
    · rw [List.mem_flatMap] at hcg
      obtain ⟨t, _, hct⟩ := hcg
      split at hct
      · simp at hct
      · rw [List.mem_singleton] at hct
        subst hct
        exact ⟨List.length_take_le _ _, List.length_take_le _ _⟩
  · simp at hcg

theorem occCapped_emitEquivGroup (most : Str × Nat × Str) (rest : List (Str × Nat × Str))
    (om bom : OccMap) (seen : List (Str × Str)) :
    OccCapped (emitEquivGroup most rest om bom seen).1 := by
  induction rest generalizing seen with
  | nil => intro c hc; simp [emitEquivGroup] at hc
  | cons f fs ih =>
    intro c hc
    unfold emitEquivGroup at hc
    dsimp only [] at hc
    split at hc
    · exact ih seen c hc
    · rcases List.mem_cons.mp hc with hceq | hcs
      · subst hceq
        exact ⟨List.length_take_le _ _, List.length_take_le _ _⟩
      · exact ih _ c hcs

theorem occCapped_compoundPartA (groups : List (List Str)) (tc btc : TermCounts)
    (om bom : OccMap) (seen : List (Str × Str)) :
    OccCapped (compoundPartA groups tc btc om bom seen).1 := by
  induction groups generalizing seen with
  | nil => intro c hc; simp [compoundPartA] at hc
  | cons g gs ih =>
    intro c hc
    unfold compoundPartA at hc
    dsimp only [] at hc
    split at hc
    · split at hc
      · exact ih seen c hc
      · rcases List.mem_append.mp hc with h | h
        · exact occCapped_emitEquivGroup _ _ om bom seen c h
        · exact ih _ c h
    · exact ih seen c hc

theorem occCapped_compoundPartBInner (bigram : Str) (bc : Nat) (normalized : Str)
    (terms : TermCounts) (om bom : OccMap) (seen : List (Str × Str)) :
    OccCapped (compoundPartBInner bigram bc normalized terms om bom seen).1 := by
  induction terms generalizing seen with
  | nil => intro c hc; simp [compoundPartBInner] at hc
  | cons t ts ih =>
    intro c hc
    unfold compoundPartBInner at hc
    dsimp only [] at hc
    split at hc
    · split at hc
      · exact ih seen c hc
      · split at hc
        · split at hc
          · rcases List.mem_cons.mp hc with hceq | hcs
            · subst hceq
              exact ⟨List.length_take_le _ _, List.length_take_le _ _⟩
            · exact ih _ c hcs
          · exact ih seen c hc
        · exact ih seen c hc
    · exact ih seen c hc

theorem occCapped_compoundPartB (bigrams : TermCounts) (tc : TermCounts)
    (om bom : OccMap) (seen : List (Str × Str)) :
    OccCapped (compoundPartB bigrams tc om bom seen).1 := by
  induction bigrams generalizing seen with
  | nil => intro c hc; simp [compoundPartB] at hc
  | cons b bs ih =>
    intro c hc
    unfold compoundPartB at hc
    dsimp only [] at hc
    split at hc
    · exact ih seen c hc
    · rcases List.mem_append.mp hc with h | h
      · exact occCapped_compoundPartBInner _ _ _ tc om bom seen c h
      · exact ih _ c h

theorem occCapped_compound (tc : TermCounts) (om : OccMap) (btc : TermCounts)
    (bom : OccMap) (config : TerminologyConfig) :
    OccCapped (find_compound_variants tc om btc bom config) := by
  unfold find_compound_variants
  exact occCapped_append (occCapped_compoundPartA _ _ _ _ _ _)
    (occCapped_compoundPartB _ _ _ _ _)

theorem occCapped_levenshteinInner (term1 : Str) (count1 : Nat) (rest : TermCounts)
    (om : OccMap) (ig : List Str) (md : Nat) (seen : List (Str × Str)) :
    OccCapped (levenshteinInner term1 count1 rest om ig md seen).1 := by
  induction rest generalizing seen with
  | nil => intro c hc; simp [levenshteinInner] at hc
  | cons t ts ih =>
    intro c hc
    unfold levenshteinInner at hc
    dsimp only [] at hc
    split at hc
    · exact ih seen c hc
    · split at hc
      · split at hc
        · exact ih seen c hc
        · rcases List.mem_cons.mp hc with hceq | hcs
          · subst hceq
            exact ⟨List.length_take_le _ _, List.length_take_le _ _⟩
          · exact ih _ c hcs
      · exact ih seen c hc

theorem occCapped_levenshteinOuter (terms : TermCounts) (om : OccMap)
    (ig : List Str) (md : Nat) (seen : List (Str × Str)) :
    OccCapped (levenshteinOuter terms om ig md seen).1 := by
  induction terms generalizing seen with
  | nil => intro c hc; simp [levenshteinOuter] at hc
  | cons t ts ih =>
    intro c hc
    unfold levenshteinOuter at hc
    dsimp only [] at hc
    split at hc
    · exact ih seen c hc
    · rcases List.mem_append.mp hc with h | h
      · exact occCapped_levenshteinInner _ _ _ om ig md seen c h
      · exact ih _ c h

theorem occCapped_levenshtein (tc : TermCounts) (om : OccMap) (ig : List Str)
    (md : Nat) : OccCapped (find_levenshtein_similar tc om ig md) :=
  occCapped_levenshteinOuter tc om ig md []

/-- Every candidate any generator emits stores at most 3 occurrences per
side. -/
theorem occCapped_allCandidates (tc : TermCounts) (om : OccMap) (btc : TermCounts)
    (bom : OccMap) (config : TerminologyConfig) :
    OccCapped (allCandidates tc om btc bom config) := by
  unfold allCandidates
  exact occCapped_append
    (occCapped_append
      (occCapped_append
        (occCapped_append
          (occCapped_append (occCapped_case _ _ _) (occCapped_abbreviations _ _ _))
          (occCapped_stem _ _ _))
        (occCapped_hyphenation _ _ _))
      (occCapped_compound _ _ _ _ _))
    (occCapped_levenshtein _ _ _ _)

/-! ### The frequency-imbalance modifiers are unreachable under the cap -/

theorem freqMods_eq_nil (c1 c2 : Nat) (h1 : c1 ≤ 3) (h2 : c2 ≤ 3) :
    freqMods c1 c2 = [] := by
  unfold freqMods
  split_ifs with ha hb hc
  · simp only [Bool.and_eq_true, decide_eq_true_eq] at ha
    omega
  · simp only [Bool.and_eq_true, decide_eq_true_eq] at ha
    omega
  · rfl
  · rfl

theorem mem_proximityMods {x : Str} {o1 o2 : List TermOccurrence}
    (h : x ∈ proximityMods o1 o2) :
    x = str "same_section" ∨ x = str "same_paragraph" := by
  unfold proximityMods at h
  split_ifs at h <;> simp at h <;> tauto

theorem mem_distantMods {x : Str} {o1 o2 : List TermOccurrence}
    (h : x ∈ distantMods o1 o2) : x = str "distant_sections" := by
  unfold distantMods at h
  dsimp only [] at h
  split_ifs at h <;> simp at h
  tauto

theorem mem_shortMods {x t1 t2 r : Str} (h : x ∈ shortMods t1 t2 r) :
    x = str "short_term_levenshtein" := by
  unfold shortMods at h
  split_ifs at h <;> simp at h
  tauto

theorem mem_codeMods {x : Str} {o1 o2 : List TermOccurrence}
    (h : x ∈ codeMods o1 o2) :
    x = str "both_terms_in_code" ∨ x = str "one_term_in_code" := by
  unfold codeMods at h
  dsimp only [] at h
  split_ifs at h <;> simp at h <;> tauto

/-- With at most 3 stored occurrences per side, the scorer never applies a
frequency-imbalance modifier. -/
theorem freq_not_in_calcmods (t1 t2 : Str) (o1 o2 : List TermOccurrence) (r : Str)
    (h1 : o1.length ≤ 3) (h2 : o2.length ≤ 3) :
    str "frequency_imbalance_high" ∉ (calculate_confidence_modifiers t1 t2 o1 o2 r).2 ∧
    str "frequency_imbalance_moderate" ∉ (calculate_confidence_modifiers t1 t2 o1 o2 r).2 := by
  unfold calculate_confidence_modifiers
  split
  · simp
  · dsimp only []
    rw [freqMods_eq_nil _ _ h1 h2]
    constructor <;>
    · intro hmem
      simp only [List.append_nil, List.mem_append] at hmem
      rcases hmem with ((h | h) | h) | h
      · rcases mem_proximityMods h with he | he <;> revert he <;> decide
      · have he := mem_distantMods h
        revert he; decide
      · have he := mem_shortMods h
        revert he; decide
      · rcases mem_codeMods h with he | he <;> revert he <;> decide

/-- Destructuring a ranked-pipeline membership: every final candidate is the
scored version of a dedup survivor. -/
theorem mem_runPipeline {c : CandidatePair} {tc : TermCounts} {om : OccMap}
    {btc : TermCounts} {bom : OccMap} {config : TerminologyConfig}
    (hc : c ∈ runPipeline tc om btc bom config) :
    ∃ c0, c0 ∈ dedupFirst (allCandidates tc om btc bom config) [] ∧ c = scoreCandidate c0 := by
  unfold runPipeline at hc
  rw [mem_sortCandidates, List.mem_map] at hc
  obtain ⟨c0, h0, he⟩ := hc
  exact ⟨c0, h0, he.symm⟩


/-! ### Part (b) of `find_compound_variants` is dead code

For every bigram whose only whitespace is plain spaces (which covers every
bigram the extractor builds, `word1 ++ " " ++ word2`), the guard
`term.lower() != bigram.lower().replace(' ', '')` contradicts the
verification `bigram_parts[0] + bigram_parts[1] == term.lower()`, so the
bigram-to-single-word path can never emit a candidate. -/

theorem toLower_of_pySpace (c : Char) (h : isPySpace c = true) : Char.toLower c = c := by
  have hn : ¬(c.toNat ≥ 65 ∧ c.toNat ≤ 90) := by
    rintro ⟨h1, h2⟩
    simp only [isPySpace, Bool.or_eq_true, beq_iff_eq] at h
    rcases h with ((((h | h) | h) | h) | h) | h <;> subst h <;> exact absurd h1 (by decide)
  unfold Char.toLower
  dsimp only []
  rw [if_neg hn]

theorem isPySpace_toLower (c : Char) (h : isPySpace (Char.toLower c) = true) :
    Char.toLower c = c := by
  by_cases hs : isPySpace c = true
  · exact toLower_of_pySpace c hs
  · exfalso
    unfold Char.toLower at h
    dsimp only [] at h
    split at h
    · rename_i hc
      obtain ⟨h1, h2⟩ := hc
      generalize hg : c.toNat = n at h1 h2 h
      interval_cases n <;> exact absurd h (by decide)
    · exact hs h

theorem lowerStr_pySpace {l : Str} (h : ∀ ch ∈ l, isPySpace ch = true → ch = ' ') :
    ∀ ch ∈ lowerStr l, isPySpace ch = true → ch = ' ' := by
  intro ch hch hsp
  rw [lowerStr, List.mem_map] at hch
  obtain ⟨c, hc, he⟩ := hch
  subst he
  have hl : Char.toLower c = c := isPySpace_toLower c hsp
  rw [hl] at hsp ⊢
  exact h c hc hsp

theorem splitWsAux_flatten : ∀ (l cur : Str), (∀ ch ∈ l, isPySpace ch = true → ch = ' ') →
    (splitWsAux l cur).flatten = cur.reverse ++ l.filter (fun c => !(c == ' ')) := by
  intro l
  induction l with
  | nil =>
    intro cur _
    unfold splitWsAux
    split
    · rename_i he
      simp only [List.isEmpty_iff] at he
      subst he
      simp
    · simp
  | cons c rest ih =>
    intro cur hws
    unfold splitWsAux
    split
    · rename_i hsp
      have hc : c = ' ' := hws c (List.mem_cons_self _ _) hsp
      subst hc
      split
      · rename_i hcur
        simp only [List.isEmpty_iff] at hcur
        subst hcur
        rw [ih [] (fun ch hm => hws ch (List.mem_cons_of_mem _ hm))]
        simp
      · simp only [List.flatten_cons]
        rw [ih [] (fun ch hm => hws ch (List.mem_cons_of_mem _ hm))]
        simp
    · rename_i hsp
      rw [ih (c :: cur) (fun ch hm => hws ch (List.mem_cons_of_mem _ hm))]
      have hcne : (c == ' ') = false := by
        rcases Bool.eq_false_or_eq_true (c == ' ') with h | h
        · exfalso
          rw [beq_iff_eq] at h
          subst h
          exact hsp (by decide)
        · exact h
      simp [List.filter_cons, hcne, List.reverse_cons, List.append_assoc]

theorem splitWs_flatten (l : Str) (h : ∀ ch ∈ l, isPySpace ch = true → ch = ' ') :
    (splitWs l).flatten = l.filter (fun c => !(c == ' ')) := by
  unfold splitWs
  rw [splitWsAux_flatten l [] h]
  simp

theorem compoundPartBInner_nil (bigram : Str) (bc : Nat) (normalized : Str)
    (hws : ∀ ch ∈ lowerStr bigram, isPySpace ch = true → ch = ' ') :
    ∀ (terms : TermCounts) (om bom : OccMap) (seen : List (Str × Str)),
      compoundPartBInner bigram bc normalized terms om bom seen = ([], seen) := by
  intro terms
  induction terms with
  | nil => intro om bom seen; rfl
  | cons t ts ih =>
    intro om bom seen
    unfold compoundPartBInner
    dsimp only []
    split
    · rename_i hcond
      split
      · exact ih om bom seen
      · split
        · rename_i p1 p2 hsplit
          split
          · rename_i heq
            exfalso
            have hflat := splitWs_flatten (lowerStr bigram) hws
            rw [hsplit] at hflat
            simp only [List.flatten_cons, List.flatten_nil, List.append_nil] at hflat
            simp only [Bool.and_eq_true, Bool.not_eq_true'] at hcond
            have hne := hcond.2
            have hterm : lowerStr t.1 = p1 ++ p2 := (beq_iff_eq.mp heq).symm
            rw [hterm, hflat] at hne
            simp at hne
          · exact ih om bom seen
        · exact ih om bom seen
    · exact ih om bom seen

theorem compoundPartB_never_emits :
    ∀ (btc : TermCounts),
      (∀ b ∈ btc, ∀ ch ∈ b.1, isPySpace ch = true → ch = ' ') →
      ∀ (tc : TermCounts) (om bom : OccMap) (seen : List (Str × Str)),
        compoundPartB btc tc om bom seen = ([], seen) := by
  intro btc
  induction btc with
  | nil => intro _ tc om bom seen; rfl
  | cons b bs ih =>
    intro hws tc om bom seen
    unfold compoundPartB
    dsimp only []
    split
    · exact ih (fun b' hb' => hws b' (List.mem_cons_of_mem _ hb')) tc om bom seen
    · rw [compoundPartBInner_nil b.1 b.2 (normalize_compound b.1)
        (lowerStr_pySpace (hws b (List.mem_cons_self _ _))) tc om bom seen]
      rw [ih (fun b' hb' => hws b' (List.mem_cons_of_mem _ hb')) tc om bom seen]
      simp

/-! ### The claims -/

/-- C1: the bigram-to-single-word path of `find_compound_variants` emits
nothing.  First conjunct: evaluation at the claim's own example, bigram
`"file path"` (count 2) against term `"filepath"` (count 3) with the default
configuration.  Second conjunct: in general, whenever every bigram key's
whitespace consists of plain spaces (as extraction guarantees), the whole
generator returns exactly the configured-equivalents output — the guard
`term.lower() != bigram.lower().replace(' ', '')` contradicts the later
check `bigram_parts[0] + bigram_parts[1] == term.lower()`, making part (b)
unreachable. -/
theorem compound_bigram_path_emits_nothing :
    find_compound_variants [(str "filepath", 3)] [] [(str "file path", 2)] []
      defaultConfig = [] ∧
    ∀ (tc : TermCounts) (om : OccMap) (btc : TermCounts) (bom : OccMap)
      (config : TerminologyConfig),
      (∀ b ∈ btc, ∀ ch ∈ b.1, isPySpace ch = true → ch = ' ') →
      find_compound_variants tc om btc bom config =
        (compoundPartA config.compound_equivalents tc btc om bom []).1 := by
  constructor
  · decide
  · intro tc om btc bom config hws
    unfold find_compound_variants
    dsimp only []
    rw [compoundPartB_never_emits btc hws tc om bom
      (compoundPartA config.compound_equivalents tc btc om bom []).2]
    simp

/-- C2: in every final result the candidate list has pairwise distinct
unordered case-insensitive keys, and every kept entry is the scored version
of the first candidate with its key in the concatenation of the six
generator outputs under the fixed order case → abbreviation → stem →
hyphenation → compound → levenshtein. -/
theorem candidates_unique_first_by_generator_order (content : Str)
    (config : TerminologyConfig) :
    ((check_terminology content config).candidates_for_review.Pairwise
      (fun a b => pairKey a ≠ pairKey b)) ∧
    (∀ c ∈ (check_terminology content config).candidates_for_review,
      ∃ c0, (allCandidates (extract_terms_with_context content).1
          (extract_terms_with_context content).2
          (extract_bigrams_with_context content).1
          (extract_bigrams_with_context content).2 config).find?
            (fun d => pairKey d == pairKey c) = some c0 ∧ c = scoreCandidate c0) := by
  constructor
  · show (runPipeline (extract_terms_with_context content).1
      (extract_terms_with_context content).2
      (extract_bigrams_with_context content).1
      (extract_bigrams_with_context content).2 config).Pairwise _
    unfold runPipeline
    rw [List.Perm.pairwise_iff (by intro a b hab he; exact hab he.symm)
      (sortCandidates_perm _), List.pairwise_map]
    refine (dedupFirst_pairwise _ []).imp ?_
    intro a b hab
    simpa [pairKey_scoreCandidate] using hab
  · intro c hc
    obtain ⟨c0, h0, rfl⟩ := mem_runPipeline hc
    obtain ⟨-, hf⟩ := dedupFirst_mem_spec _ [] c0 h0
    refine ⟨c0, ?_, rfl⟩
    simp only [pairKey_scoreCandidate]
    exact hf

/-- C3: the full pipeline (extraction, six generators, deduplication,
scoring, ranking) is deterministic.  The embedding models Python's
insertion-ordered dictionaries and stable sorts, under which the whole
pipeline is a pure function of the document text and the configuration, so
two runs on identical inputs produce identical ranked output, tie-breaks
included. -/
theorem check_terminology_deterministic (content1 content2 : Str)
    (config1 config2 : TerminologyConfig) (hc : content1 = content2)
    (hcfg : config1 = config2) :
    check_terminology content1 config1 = check_terminology content2 config2 := by
  rw [hc, hcfg]

/-- C3 witness: two runs on one concrete document coincide. -/
theorem check_terminology_deterministic_witness :
    check_terminology (str "sub-agent subagent") defaultConfig =
      check_terminology (str "sub-agent subagent") defaultConfig :=
  check_terminology_deterministic (str "sub-agent subagent") (str "sub-agent subagent")
    defaultConfig defaultConfig rfl rfl

/-- C4: on the term table `{"sub-agent": 3, "subagent": 2}` with empty
bigram table, empty occurrence maps and the default configuration, the
final deduplicated result is exactly one pair with reason
`hyphenation_variant` and suggestion `"sub-agent"` (base and adjusted
confidence 0.88, i.e. 88 hundredths), even though the Levenshtein generator
alone also flags the same unordered pair at distance 1 — the hyphenation
entry wins by merge order. -/
theorem hyphenation_beats_levenshtein_scenario :
    runPipeline [(str "sub-agent", 3), (str "subagent", 2)] [] [] [] defaultConfig =
      [{ term1 := str "sub-agent", term1_count := 3, term2 := str "subagent",
         term2_count := 2, reason := str "hyphenation_variant",
         suggestion := some (str "sub-agent"),
         base_confidence := 88, adjusted_confidence := 88 }] ∧
    (find_levenshtein_similar [(str "sub-agent", 3), (str "subagent", 2)] [] [] 2).map
      (fun c => (c.term1, c.term2, c.reason)) =
      [(str "sub-agent", str "subagent", str "levenshtein_distance_1")] := by
  decide

/-- C5: no final candidate ever carries a frequency-imbalance modifier: the
scorer computes the ratio from the lengths of the stored occurrence lists,
every generator caps them at 3 per side, and `3/1 = 3` never exceeds the
`> 5` and `> 10` thresholds. -/
theorem frequency_imbalance_never_applied (content : Str) (config : TerminologyConfig) :
    (∀ c ∈ (check_terminology content config).candidates_for_review,
      str "frequency_imbalance_high" ∉ c.modifiers_applied) ∧
    (∀ c ∈ (check_terminology content config).candidates_for_review,
      str "frequency_imbalance_moderate" ∉ c.modifiers_applied) := by
  have main : ∀ c ∈ (check_terminology content config).candidates_for_review,
      str "frequency_imbalance_high" ∉ c.modifiers_applied ∧
      str "frequency_imbalance_moderate" ∉ c.modifiers_applied := by
    intro c hc
    obtain ⟨c0, h0, rfl⟩ := mem_runPipeline hc
    have hcap := occCapped_allCandidates _ _ _ _ config c0 (dedupFirst_subset h0)
    rw [modifiers_scoreCandidate]
    exact freq_not_in_calcmods _ _ _ _ _ hcap.1 hcap.2
  exact ⟨fun c hc => (main c hc).1, fun c hc => (main c hc).2⟩

/-- C6 counterexample: the claim reads the `-ied`/`-ies` rules without a
length condition, but `simple_stem` requires `len(word) > 4` for both:
`"died"` ends in `ied` yet is returned unchanged (not `"diy"`), and
`"ties"` ends in `ies` yet falls through to the `-s` rule (giving `"tie"`,
not `"ty"`). -/
theorem simple_stem_ied_counterexample :
    endsWith (str "ied") (lowerStr (str "died")) ∧ simple_stem (str "died") ≠ str "diy" ∧
    endsWith (str "ies") (lowerStr (str "ties")) ∧ simple_stem (str "ties") ≠ str "ty" := by
  decide

/-- C6 (amended): for every word whose lowercased form ends in `ied` AND has
length greater than 4, `simple_stem` returns the lowercased word with the
trailing three characters replaced by `y`; likewise for `ies` with length
greater than 4 (shorter words fall through to the later rules). -/
theorem simple_stem_ied_ies_amended (w : Str) :
    (endsWith (str "ied") (lowerStr w) → 4 < (lowerStr w).length →
      simple_stem w = (lowerStr w).take ((lowerStr w).length - 3) ++ str "y") ∧
    (endsWith (str "ies") (lowerStr w) → 4 < (lowerStr w).length →
      simple_stem w = (lowerStr w).take ((lowerStr w).length - 3) ++ str "y") := by
  constructor
  · intro hied hlen
    have hni : ¬ (endsWith (str "ing") (lowerStr w) ∧ 5 < (lowerStr w).length) := by
      rintro ⟨hing, -⟩
      have h1 := hied.2
      have h2 := hing.2
      rw [show ((str "ing").length = 3) from rfl] at h2
      rw [show ((str "ied").length = 3) from rfl] at h1
      rw [h1] at h2
      exact absurd h2 (by decide)
    unfold simple_stem
    dsimp only []
    rw [if_neg hni, if_pos ⟨hied, hlen⟩]
  · intro hies hlen
    have hni : ¬ (endsWith (str "ing") (lowerStr w) ∧ 5 < (lowerStr w).length) := by
      rintro ⟨hing, -⟩
      have h1 := hies.2
      have h2 := hing.2
      rw [show ((str "ing").length = 3) from rfl] at h2
      rw [show ((str "ies").length = 3) from rfl] at h1
      rw [h1] at h2
      exact absurd h2 (by decide)
    have hnd : ¬ (endsWith (str "ied") (lowerStr w) ∧ 4 < (lowerStr w).length) := by
      rintro ⟨hied, -⟩
      have h1 := hies.2
      have h2 := hied.2
      rw [show ((str "ied").length = 3) from rfl] at h2
      rw [show ((str "ies").length = 3) from rfl] at h1
      rw [h1] at h2
      exact absurd h2 (by decide)
    unfold simple_stem
    dsimp only []
    rw [if_neg hni, if_neg hnd, if_pos ⟨hies, hlen⟩]

/-- C6 witness: the amended rules at `"studied"` and `"copies"`. -/
theorem simple_stem_ied_ies_amended_witness :
    simple_stem (str "studied") = str "study" ∧ simple_stem (str "copies") = str "copy" := by
  have h1 := (simple_stem_ied_ies_amended (str "studied")).1 (by decide) (by decide)
  have h2 := (simple_stem_ied_ies_amended (str "copies")).2 (by decide) (by decide)
  rw [h1, h2]
  decide

/-- C7: every final candidate's adjusted confidence equals the base
confidence of its reason plus the sum of the applied modifier weights,
clamped to the unit interval (in exact hundredths: `[0, 100]`), and in
particular always lies within it. -/
theorem adjusted_confidence_clamped (content : Str) (config : TerminologyConfig) :
    (∀ c ∈ (check_terminology content config).candidates_for_review,
      c.adjusted_confidence =
        max 0 (min 100 (baseConfidence c.reason + modsWeight c.modifiers_applied))) ∧
    (∀ c ∈ (check_terminology content config).candidates_for_review,
      0 ≤ c.adjusted_confidence ∧ c.adjusted_confidence ≤ 100) := by
  have main : ∀ c ∈ (check_terminology content config).candidates_for_review,
      c.adjusted_confidence =
        max 0 (min 100 (baseConfidence c.reason + modsWeight c.modifiers_applied)) ∧
      (0 ≤ c.adjusted_confidence ∧ c.adjusted_confidence ≤ 100) := by
    intro c hc
    obtain ⟨c0, h0, rfl⟩ := mem_runPipeline hc
    constructor
    · simp only [adjusted_scoreCandidate, modifiers_scoreCandidate, reason_scoreCandidate,
        get_adjusted_confidence, calcmods_fst]
    · rw [adjusted_scoreCandidate]
      exact get_adjusted_confidence_bounds _ _
  exact ⟨fun c hc => (main c hc).1, fun c hc => (main c hc).2⟩

/-- C8: on the term table `{"file": 5, "files": 3}` the stem generator emits
nothing — the two terms share the stem `file` but are skipped by the trivial
singular/plural exclusion. -/
theorem stem_plural_exclusion_scenario :
    find_stem_variations [(str "file", 5), (str "files", 3)] [] [] = [] := by decide

/-- C10: an empty document is not an error: extraction yields empty
frequency tables and occurrence maps, and every generator applied to the
empty tables with the default configuration yields an empty candidate list
(all functions are total, so no failure is possible). -/
theorem empty_document_yields_empty :
    extract_terms_with_context (str "") = ([], []) ∧
    extract_bigrams_with_context (str "") = ([], []) ∧
    find_case_variations [] [] defaultConfig.ignore_terms = [] ∧
    find_abbreviations [] [] defaultConfig = [] ∧
    find_stem_variations [] [] defaultConfig.ignore_terms = [] ∧
    find_hyphenation_variants [] [] defaultConfig.ignore_terms = [] ∧
    find_compound_variants [] [] [] [] defaultConfig = [] ∧
    find_levenshtein_similar [] [] defaultConfig.ignore_terms 2 = [] := by
  refine ⟨?_, ?_, by decide, by decide, by decide, by decide, by decide, by decide⟩
  · have h0 : str "" = [] := rfl
    rw [h0]
    simp [extract_terms_with_context, processLines, processLinesAux, splitLines,
      stripStr, startsWithStr, removeInlineCode, removeUrls, removeFilePaths, str]
  · have h0 : str "" = [] := rfl
    rw [h0]
    simp [extract_bigrams_with_context, processLines, processLinesAux, splitLines,
      stripStr, startsWithStr, removeInlineCode, removeUrls, removeFilePaths, str]
